import Mathlib

/-!
Shallow embedding of the SQLite migration manager
(`src/core/migration/migration_manager.py` and `src/core/migration/utils.py`).

The manager's observable state is modelled by `DbState`:
* `dir`     — the migration directory: `none` when the directory does not
              exist, otherwise the list of files it contains;
* `ledger`  — the `_migrations` table: `none` when the table has not been
              created yet, otherwise its rows as `(version, description)`
              pairs (the surrogate id and timestamp columns play no role in
              any claim and are omitted);
* `tables`  — the names of the schema-level objects created by migration
              scripts.

SQL script bodies are modelled as lists of interpreted statements (`Stmt`),
which is enough to express success, "already exists" collisions and
arbitrary fatal execution errors.  Fallible operations return
`Except String α × DbState` so that the state reached when an exception
propagates stays observable (committed ledger writes survive a later error,
exactly as in the Python code).
-/

deriving instance DecidableEq for Except

/-- ASCII char-by-char lowering; models Python `str.lower()` on the ASCII
inputs the manager deals with. -/
def lowerStr (s : String) : String := String.mk (s.data.map Char.toLower)

/-- `listIsPrefix p l` is true when `p` is a prefix of `l`. -/
def listIsPrefix : List Char → List Char → Bool
  | [], _ => true
  | _ :: _, [] => false
  | a :: as, b :: bs => a == b && listIsPrefix as bs

/-- `listContainsSub p l` is true when `p` occurs as a contiguous infix of
`l`; models Python's `in` test on strings. -/
def listContainsSub (pat : List Char) : List Char → Bool
  | [] => listIsPrefix pat []
  | c :: rest => listIsPrefix pat (c :: rest) || listContainsSub pat rest

/-- `containsSub pat s`: does `s` contain `pat` as a substring? -/
def containsSub (pat s : String) : Bool := listContainsSub pat.data s.data

/-- Numeric value of a decimal digit character. -/
def digitVal (c : Char) : Nat := c.toNat - 48

/-- Value of a list of decimal digit characters, most significant first. -/
def natValue (ds : List Char) : Nat := ds.foldl (fun a c => a * 10 + digitVal c) 0

/-- The decimal digit character for `n < 10`. -/
def digitChar (n : Nat) : Char := Char.ofNat (48 + n)

/-- Decimal digits of `n`, most significant first, computed with explicit
fuel so that it reduces definitionally.  The fuel `n + 1` always suffices. -/
def natDigitsAux : Nat → Nat → List Char
  | 0, _ => []
  | fuel + 1, n =>
    if n < 10 then [digitChar n]
    else natDigitsAux fuel (n / 10) ++ [digitChar (n % 10)]

/-- Decimal digit string of `n` (as Python `str(n)` for naturals). -/
def natDigits (n : Nat) : List Char := natDigitsAux (n + 1) n

/-- Models the Python format `f"{n:03d}"`: the decimal digits of `n`,
left-padded with `'0'` to a minimum width of 3. -/
def pad3 (n : Nat) : String :=
  String.mk (List.replicate (3 - (natDigits n).length) '0' ++ natDigits n)

/-- Embeds `utils.extract_version`: `re.match(r"^(\d+)_", name)` succeeds
exactly when the maximal leading run of decimal digits is nonempty and is
immediately followed by `'_'` (a shorter digit prefix is always followed by
another digit, so backtracking never helps); the version is the integer
value of that digit run, and `0` is returned when there is no match. -/
def extract_version (name : String) : Nat :=
  let ds := name.data.takeWhile Char.isDigit
  if ds = [] then 0
  else
    match (name.data.drop ds.length).head? with
    | some c => if c = '_' then natValue ds else 0
    | none => 0

/-- A statement of a migration script, with just enough SQL semantics to
express the behaviours the manager distinguishes. -/
inductive Stmt where
  | createTable (name : String)
  | createTableIfNotExists (name : String)
  | dropTable (name : String)
  | sqlError (msg : String)
deriving Repr, DecidableEq

/-- Execute one statement against the current set of schema tables. -/
def execStmt (s : Stmt) (tables : List String) : Except String (List String) :=
  match s with
  | .createTable n =>
    if tables.contains n then .error ("table " ++ n ++ " already exists")
    else .ok (tables ++ [n])
  | .createTableIfNotExists n =>
    if tables.contains n then .ok tables else .ok (tables ++ [n])
  | .dropTable n =>
    if tables.contains n then .ok (tables.filter (fun t => !(t == n)))
    else .error ("no such table: " ++ n)
  | .sqlError m => .error m

/-- Models `sqlite3`'s `Connection.executescript`: the statements run one
after another in autocommit mode — `executescript` issues a `COMMIT` before
starting and opens no transaction of its own, so every completed
statement's effect is committed immediately.  Execution stops at the first
failing statement; the result is the committed tables at that point
together with that statement's message (`none` when the script ran to the
end). -/
def executescript : List Stmt → List String → List String × Option String
  | [], ts => (ts, none)
  | s :: rest, ts =>
    match execStmt s ts with
    | .ok ts1 => executescript rest ts1
    | .error e => (ts, some e)

/-- A file of the migration directory: its name and (parsed) SQL body. -/
structure MigFile where
  name : String
  script : List Stmt
deriving Repr, DecidableEq

/-- The observable state of the database and migration directory. -/
structure DbState where
  dir : Option (List MigFile)
  ledger : Option (List (String × String))
  tables : List String
deriving Repr, DecidableEq

/-- The files of the migration directory (empty when the directory does not
exist). -/
def dirFiles (st : DbState) : List MigFile :=
  match st.dir with
  | none => []
  | some fs => fs

/-- The rows of the `_migrations` table (empty when the table is absent). -/
def ledgerRows (st : DbState) : List (String × String) :=
  match st.ledger with
  | none => []
  | some rows => rows

/-- Does `name` end in `".sql"`?  Models the glob pattern `*.sql`. -/
def endsWithSql (name : String) : Bool :=
  listIsPrefix ".sql".data.reverse name.data.reverse

/-- The version-sort comparator used by `get_migration_files`
(`files.sort(key=lambda f: extract_version(f.name))`). -/
def versionLe (a b : MigFile) : Bool :=
  decide (extract_version a.name ≤ extract_version b.name)

/-- Stable insertion of `x` into a `le`-sorted list: `x` goes before the
first element not `le`-below it, hence after all elements it ties with. -/
def insertLe {α : Type} (le : α → α → Bool) (x : α) : List α → List α
  | [] => [x]
  | y :: ys => if le y x then y :: insertLe le x ys else x :: y :: ys

/-- A stable sort under the comparator `le` (insertion from the left, ties
keep their original relative order) — the specification of Python's stable
`list.sort` / `sorted`. -/
def sortLe {α : Type} (le : α → α → Bool) (l : List α) : List α :=
  l.foldl (fun acc x => insertLe le x acc) []

/-- Discovery over a concrete directory listing: keep the `*.sql` files
whose extracted version is non-zero, and sort them by numeric version
(`list.sort` is a stable sort). -/
def discoverList (fs : List MigFile) : List MigFile :=
  sortLe versionLe
    ((fs.filter (fun f => endsWithSql f.name)).filter
      (fun f => decide (0 < extract_version f.name)))

/-- Embeds `MigrationManager.get_migration_files`. -/
def get_migration_files (st : DbState) : List MigFile :=
  match st.dir with
  | none => []
  | some fs => discoverList fs

/-- The canonical ledger key of a migration file:
`f"{extract_version(migration_file.name):03d}"`. -/
def versionKey (f : MigFile) : String := pad3 (extract_version f.name)

/-- Embeds Python `pathlib.Path(name).stem`: the name without its last
suffix, where the suffix starts at the last `'.'` provided that dot is
neither the first nor the last character. -/
def rfindDot : List Char → Option Nat
  | [] => none
  | c :: rest =>
    match rfindDot rest with
    | some i => some (i + 1)
    | none => if c = '.' then some 0 else none

/-- See `rfindDot`. -/
def pathStem (name : String) : String :=
  match rfindDot name.data with
  | some i =>
    if 0 < i ∧ i < name.data.length - 1 then String.mk (name.data.take i) else name
  | none => name

/-- The description recorded for a migration file:
`stem.split("_", 1)[1] if "_" in stem else ""`. -/
def descOf (name : String) : String :=
  let st := (pathStem name).data
  if st.contains '_' then String.mk ((st.dropWhile (fun c => !(c == '_'))).drop 1)
  else ""

/-- Embeds `MigrationManager.ensure_migrations_table`
(`CREATE TABLE IF NOT EXISTS _migrations ...`). -/
def ensure_migrations_table (st : DbState) : DbState :=
  match st.ledger with
  | none => { st with ledger := some [] }
  | some _ => st

/-- Embeds `MigrationManager.get_applied_migrations`: all versions recorded
in the ledger; the empty set when the table is missing
(`sqlite3.OperationalError` is swallowed). -/
def get_applied_migrations (st : DbState) : List String :=
  (ledgerRows st).map (fun r => r.1)

/-- Embeds `MigrationManager.mark_migration_applied`: `INSERT INTO
_migrations (version, description)`.  Fails when the table is absent or
when the `UNIQUE` constraint on `version` is violated. -/
def mark_migration_applied (version description : String) (st : DbState) :
    Except String DbState :=
  match st.ledger with
  | none => .error "no such table: _migrations"
  | some rows =>
    if rows.any (fun r => r.1 == version) then
      .error "UNIQUE constraint failed: _migrations.version"
    else .ok { st with ledger := some (rows ++ [(version, description)]) }

/-- Embeds `MigrationManager.safe_executescript`: run the script through
`executescript`; on failure raise
`RuntimeError(f"SQL execution failed: {e}")`.  The `conn.rollback()` in the
`except` branch undoes nothing: each completed statement was already
auto-committed and nothing is left pending, so the partial schema effects
of the statements before the failing one persist. -/
def safe_executescript (script : List Stmt) (st : DbState) :
    Except String Unit × DbState :=
  match executescript script st.tables with
  | (ts, none) => (.ok (), { st with tables := ts })
  | (ts, some e) => (.error ("SQL execution failed: " ++ e), { st with tables := ts })

/-- Embeds `MigrationManager.apply_migration`.  Returns `(outcome, state)`;
an `.error` outcome models a propagating exception, and the paired state is
the one the database is left in. -/
def apply_migration (f : MigFile) (applied : List String) (st : DbState) :
    Except String Bool × DbState :=
  if applied.contains (versionKey f) then (.ok false, st)
  else
    match safe_executescript f.script st with
    | (.ok _, st1) =>
      match mark_migration_applied (versionKey f) (descOf f.name) st1 with
      | .ok st2 => (.ok true, st2)
      | .error e => (.error e, st1)
    | (.error e, st1) =>
      if containsSub "already exists" (lowerStr e) then
        match mark_migration_applied (versionKey f) (descOf f.name) st1 with
        | .ok st2 => (.ok true, st2)
        | .error e2 => (.error e2, st1)
      else (.error e, st1)

/-- The `for file in pending` loop of `MigrationManager.run_migrations`. -/
def run_loop : List MigFile → List String → Nat → DbState → Except String Nat × DbState
  | [], _, count, st => (.ok count, st)
  | f :: rest, applied, count, st =>
    match apply_migration f applied st with
    | (.ok true, st1) => run_loop rest (applied ++ [versionKey f]) (count + 1) st1
    | (.ok false, st1) => run_loop rest applied count st1
    | (.error e, st1) => (.error e, st1)

/-- Embeds `MigrationManager.run_migrations`. -/
def run_migrations (st : DbState) : Except String Nat × DbState :=
  let st1 := ensure_migrations_table st
  let files := get_migration_files st1
  if files.isEmpty then (.ok 0, st1)
  else
    let applied := get_applied_migrations st1
    let pending := files.filter (fun f => !(applied.contains (versionKey f)))
    if pending.isEmpty then (.ok 0, st1)
    else run_loop pending applied 0 st1

/-- The slug of `create_migration`:
`re.sub(r"[^a-z0-9_]", "", description.lower().replace(" ", "_"))`. -/
def slugChar (c : Char) : Bool :=
  ('a' ≤ c && c ≤ 'z') || ('0' ≤ c && c ≤ '9') || c == '_'

/-- See `slugChar`. -/
def slugify (d : String) : String :=
  String.mk
    (((d.data.map Char.toLower).map (fun c => if c == ' ' then '_' else c)).filter
      slugChar)

/-- The body written by `create_migration` is a comment-only template: as a
script it contains no statements. -/
def migrationTemplate : List Stmt := []

/-- The next version computed by `create_migration`:
`1 if not existing else extract_version(existing[-1].name) + 1`. -/
def next_version (st : DbState) : Nat :=
  let existing := get_migration_files st
  if existing.isEmpty then 1
  else extract_version (existing.getLastD ⟨"", []⟩).name + 1

/-- `path.write_text(...)` after `mkdir(parents=True, exist_ok=True)`:
the directory now exists and holds a file of this name with the new body. -/
def writeFileToDir (f : MigFile) (dir : Option (List MigFile)) : List MigFile :=
  match dir with
  | none => [f]
  | some fs => fs.filter (fun g => !(g.name == f.name)) ++ [f]

/-- Embeds `MigrationManager.create_migration`; returns the new file's name
(the returned `Path` is the migration directory joined with it). -/
def create_migration (description : String) (st : DbState) : String × DbState :=
  let filename := pad3 (next_version st) ++ "_" ++ slugify description ++ ".sql"
  (filename,
    { st with dir := some (writeFileToDir ⟨filename, migrationTemplate⟩ st.dir) })

/-- Lexicographic comparison of char lists by code point; models Python's
`<=` on strings, which `sorted` uses. -/
def strLeAux : List Char → List Char → Bool
  | [], _ => true
  | _ :: _, [] => false
  | a :: as, b :: bs => if a < b then true else if b < a then false else strLeAux as bs

/-- See `strLeAux`. -/
def strLe (a b : String) : Bool := strLeAux a.data b.data

/-- Python `sorted` on a list of strings (a stable sort under `strLe`). -/
def sortStrings (l : List String) : List String := sortLe strLe l

/-- Embeds `MigrationManager.rollback_last`:
`applied = sorted(list(self.get_applied_migrations()))`; no-op when empty
or when `unsafe_force` is not set; otherwise
`DELETE FROM _migrations WHERE version = applied[-1]`. -/
def rollback_last (unsafe_force : Bool) (st : DbState) : DbState :=
  let applied := sortStrings (get_applied_migrations st)
  if applied.isEmpty then st
  else if !unsafe_force then st
  else
    let last := applied.getLastD ""
    { st with ledger := st.ledger.map (fun rows => rows.filter (fun r => !(r.1 == last))) }

/-- Embeds `MigrationManager.list_migrations`; instead of printing, returns
the reported lines as `(version, description, applied?)` triples. -/
def list_migrations (st : DbState) : List (String × String × Bool) × DbState :=
  let st1 := ensure_migrations_table st
  let files := get_migration_files st1
  let applied := get_applied_migrations st1
  (files.map (fun f => (versionKey f, descOf f.name, applied.contains (versionKey f))), st1)

/-- Embeds `MigrationManager.delete_migration`: find the first discovered
file whose canonical version matches; report not-found (no mutation) when
there is none, otherwise unlink the file, ensure the ledger table and
delete any record of that version. -/
def delete_migration (version : String) (st : DbState) : DbState :=
  match (get_migration_files st).find? (fun f => versionKey f == version) with
  | none => st
  | some target =>
    let st1 :=
      { st with dir := st.dir.map (fun fs => fs.filter (fun g => !(g.name == target.name))) }
    let st2 := ensure_migrations_table st1
    { st2 with ledger := st2.ledger.map (fun rows => rows.filter (fun r => !(r.1 == version))) }

/-! ### Properties of the stable sort and its comparators -/

theorem mem_insertLe {α : Type} (le : α → α → Bool) (x a : α) (l : List α) :
    a ∈ insertLe le x l ↔ a = x ∨ a ∈ l := by
  induction l with
  | nil => simp [insertLe]
  | cons y ys ih =>
    by_cases h : le y x = true
    · simp only [insertLe, if_pos h, List.mem_cons, ih]
      tauto
    · simp only [insertLe, if_neg h, List.mem_cons]

theorem mem_sortLe {α : Type} (le : α → α → Bool) (a : α) (l : List α) :
    a ∈ sortLe le l ↔ a ∈ l := by
  suffices h : ∀ acc : List α,
      a ∈ l.foldl (fun acc x => insertLe le x acc) acc ↔ a ∈ acc ∨ a ∈ l by
    have := h []
    simpa [sortLe] using this
  induction l with
  | nil => simp
  | cons y ys ih =>
    intro acc
    simp only [List.foldl_cons, ih, mem_insertLe, List.mem_cons]
    tauto

theorem pairwise_insertLe {α : Type} (le : α → α → Bool)
    (htrans : ∀ a b c, le a b = true → le b c = true → le a c = true)
    (htotal : ∀ a b, le a b = true ∨ le b a = true)
    (x : α) (l : List α) (hl : List.Pairwise (fun a b => le a b = true) l) :
    List.Pairwise (fun a b => le a b = true) (insertLe le x l) := by
  induction l with
  | nil => simp [insertLe]
  | cons y ys ih =>
    rcases List.pairwise_cons.mp hl with ⟨hy, hys⟩
    by_cases h : le y x = true
    · simp only [insertLe, h, if_pos]
      refine List.pairwise_cons.mpr ⟨?_, ih hys⟩
      intro b hb
      rcases (mem_insertLe le x b ys).mp hb with rfl | hb
      · exact h
      · exact hy b hb
    · simp only [insertLe, h, if_neg, Bool.not_eq_true]
      refine List.pairwise_cons.mpr ⟨?_, hl⟩
      intro b hb
      have hxy : le x y = true := by
        rcases htotal x y with h1 | h1
        · exact h1
        · exact absurd h1 (by simp [h])
      rcases List.mem_cons.mp hb with rfl | hb
      · exact hxy
      · exact htrans x y b hxy (hy b hb)

theorem pairwise_sortLe {α : Type} (le : α → α → Bool)
    (htrans : ∀ a b c, le a b = true → le b c = true → le a c = true)
    (htotal : ∀ a b, le a b = true ∨ le b a = true)
    (l : List α) : List.Pairwise (fun a b => le a b = true) (sortLe le l) := by
  suffices h : ∀ acc : List α, List.Pairwise (fun a b => le a b = true) acc →
      List.Pairwise (fun a b => le a b = true)
        (l.foldl (fun acc x => insertLe le x acc) acc) by
    exact h [] (by simp)
  induction l with
  | nil => intro acc hacc; simpa using hacc
  | cons y ys ih =>
    intro acc hacc
    exact ih (insertLe le y acc) (pairwise_insertLe le htrans htotal y acc hacc)

theorem getLastD_mem {α : Type} (l : List α) (d : α) (hl : l ≠ []) :
    l.getLastD d ∈ l := by
  induction l with
  | nil => exact absurd rfl hl
  | cons y ys ih =>
    cases ys with
    | nil => simp
    | cons z zs => simpa using Or.inr (ih (by simp))

theorem pairwise_le_getLastD {α : Type} (le : α → α → Bool)
    (hrefl : ∀ a, le a a = true) (l : List α)
    (hp : List.Pairwise (fun a b => le a b = true) l) :
    ∀ d, ∀ x ∈ l, le x (l.getLastD d) = true := by
  induction l with
  | nil => simp
  | cons y ys ih =>
    rcases List.pairwise_cons.mp hp with ⟨hy, hys⟩
    intro d x hx
    rcases List.mem_cons.mp hx with rfl | hx
    · cases ys with
      | nil => simpa using hrefl x
      | cons z zs =>
        simpa using hy _ (getLastD_mem (z :: zs) x (by simp))
    · cases ys with
      | nil => simp at hx
      | cons z zs => simpa using ih hys y x hx

theorem versionLe_trans (a b c : MigFile)
    (h1 : versionLe a b = true) (h2 : versionLe b c = true) : versionLe a c = true := by
  simp only [versionLe, decide_eq_true_eq] at h1 h2 ⊢
  omega

theorem versionLe_total (a b : MigFile) : versionLe a b = true ∨ versionLe b a = true := by
  simp only [versionLe, decide_eq_true_eq]
  omega

theorem versionLe_refl (a : MigFile) : versionLe a a = true := by
  simp [versionLe]

theorem strLeAux_refl (l : List Char) : strLeAux l l = true := by
  induction l with
  | nil => rfl
  | cons a as ih => simp [strLeAux, ih]

theorem strLe_refl (a : String) : strLe a a = true := strLeAux_refl a.data

theorem strLeAux_trans (a : List Char) :
    ∀ b c, strLeAux a b = true → strLeAux b c = true → strLeAux a c = true := by
  induction a with
  | nil => intro b c _ _; rfl
  | cons x xs ih =>
    intro b c h1 h2
    cases b with
    | nil => simp [strLeAux] at h1
    | cons y ys =>
      cases c with
      | nil => simp [strLeAux] at h2
      | cons z zs =>
        simp only [strLeAux] at h1 h2 ⊢
        by_cases hxy : x < y
        · by_cases hyz : y < z
          · simp [lt_trans hxy hyz]
          · by_cases hzy : z < y
            · simp [strLeAux, hyz, hzy] at h2
            · have : y = z := le_antisymm (not_lt.mp hzy) (not_lt.mp hyz)
              subst this
              simp [hxy]
        · by_cases hyx : y < x
          · simp [hxy, hyx] at h1
          · have : x = y := le_antisymm (not_lt.mp hyx) (not_lt.mp hxy)
            subst this
            simp only [if_neg hxy, if_neg hyx] at h1
            by_cases hyz : x < z
            · simp [hyz]
            · by_cases hzy : z < x
              · simp [hyz, hzy] at h2
              · simp only [if_neg hyz, if_neg hzy] at h2 ⊢
                exact ih ys zs h1 h2

theorem strLe_trans (a b c : String) (h1 : strLe a b = true) (h2 : strLe b c = true) :
    strLe a c = true := strLeAux_trans a.data b.data c.data h1 h2

theorem strLeAux_total (a : List Char) :
    ∀ b, strLeAux a b = true ∨ strLeAux b a = true := by
  induction a with
  | nil => intro b; left; rfl
  | cons x xs ih =>
    intro b
    cases b with
    | nil => right; rfl
    | cons y ys =>
      simp only [strLeAux]
      by_cases hxy : x < y
      · left; simp [hxy]
      · by_cases hyx : y < x
        · right; simp [hyx]
        · rcases ih ys with h | h
          · left; simp [hxy, hyx, h]
          · right; simp [hxy, hyx, h]

theorem strLe_total (a b : String) : strLe a b = true ∨ strLe b a = true :=
  strLeAux_total a.data b.data

/-! ### Decimal digits, `pad3` and `extract_version` -/

theorem digitChar_spec : ∀ n < 10, (digitChar n).isDigit = true ∧ digitVal (digitChar n) = n := by
  decide

theorem natValue_append_digit (ds : List Char) (c : Char) :
    natValue (ds ++ [c]) = natValue ds * 10 + digitVal c := by
  simp [natValue, List.foldl_append]

theorem natValue_natDigitsAux (fuel : Nat) :
    ∀ n, n < fuel → natValue (natDigitsAux fuel n) = n := by
  induction fuel with
  | zero => intro n h; omega
  | succ fuel ih =>
    intro n h
    by_cases h10 : n < 10
    · have := (digitChar_spec n h10).2
      simp [natDigitsAux, h10, natValue, this]
    · have hdiv : n / 10 < n := Nat.div_lt_self (by omega) (by omega)
      have hmod := (digitChar_spec (n % 10) (Nat.mod_lt n (by omega))).2
      simp only [natDigitsAux, if_neg h10, natValue_append_digit, hmod,
        ih (n / 10) (by omega)]
      omega

theorem natValue_natDigits (n : Nat) : natValue (natDigits n) = n :=
  natValue_natDigitsAux (n + 1) n (by omega)

theorem natDigitsAux_ne_nil (fuel n : Nat) (h : 0 < fuel) : natDigitsAux fuel n ≠ [] := by
  cases fuel with
  | zero => omega
  | succ fuel =>
    by_cases h10 : n < 10 <;> simp [natDigitsAux, h10]

theorem natDigitsAux_isDigit (fuel : Nat) :
    ∀ n, ∀ c ∈ natDigitsAux fuel n, c.isDigit = true := by
  induction fuel with
  | zero => simp [natDigitsAux]
  | succ fuel ih =>
    intro n c hc
    by_cases h10 : n < 10
    · simp only [natDigitsAux, if_pos h10, List.mem_singleton] at hc
      subst hc
      exact (digitChar_spec n h10).1
    · simp only [natDigitsAux, if_neg h10, List.mem_append, List.mem_singleton] at hc
      rcases hc with hc | hc
      · exact ih (n / 10) c hc
      · subst hc
        exact (digitChar_spec (n % 10) (Nat.mod_lt n (by omega))).1

theorem natValue_cons_zero (l : List Char) : natValue ('0' :: l) = natValue l := rfl

theorem natValue_replicate_zero (k : Nat) (ds : List Char) :
    natValue (List.replicate k '0' ++ ds) = natValue ds := by
  induction k with
  | zero => simp
  | succ k ih => simpa [List.replicate_succ, natValue_cons_zero] using ih

theorem pad3_data (n : Nat) :
    (pad3 n).data = List.replicate (3 - (natDigits n).length) '0' ++ natDigits n := rfl

theorem natValue_pad3 (n : Nat) : natValue (pad3 n).data = n := by
  rw [pad3_data, natValue_replicate_zero, natValue_natDigits]

theorem pad3_ne_nil (n : Nat) : (pad3 n).data ≠ [] := by
  rw [pad3_data]
  intro h
  rcases List.append_eq_nil.mp h with ⟨-, h2⟩
  exact natDigitsAux_ne_nil (n + 1) n (by omega) h2

theorem pad3_isDigit (n : Nat) : ∀ c ∈ (pad3 n).data, c.isDigit = true := by
  rw [pad3_data]
  intro c hc
  rcases List.mem_append.mp hc with hc | hc
  · have := List.eq_of_mem_replicate hc
    subst this
    decide
  · exact natDigitsAux_isDigit (n + 1) n c hc

theorem pad3_inj (a b : Nat) (h : pad3 a = pad3 b) : a = b := by
  have := congrArg (fun s => natValue s.data) h
  simpa [natValue_pad3] using this

theorem takeWhile_all {α : Type} (p : α → Bool) (l : List α) (h : ∀ c ∈ l, p c = true) :
    l.takeWhile p = l := by
  induction l with
  | nil => rfl
  | cons c cs ih =>
    simp only [List.takeWhile_cons, h c (by simp), if_pos]
    rw [ih (fun d hd => h d (by simp [hd]))]

theorem extract_version_of_digits (ds rest : List Char) (hne : ds ≠ [])
    (hdig : ∀ c ∈ ds, c.isDigit = true) :
    extract_version (String.mk (ds ++ '_' :: rest)) = natValue ds := by
  have htw : (ds ++ '_' :: rest).takeWhile Char.isDigit = ds := by
    rw [List.takeWhile_append]
    simp [takeWhile_all Char.isDigit ds hdig]
  simp [extract_version, htw, hne, List.drop_left]

theorem extract_version_pos_decomp (s : String) (h : extract_version s ≠ 0) :
    ∃ ds rest, ds ≠ [] ∧ (∀ c ∈ ds, c.isDigit = true) ∧ s.data = ds ++ '_' :: rest := by
  by_cases h1 : s.data.takeWhile Char.isDigit = []
  · simp [extract_version, h1] at h
  · rcases hh : (s.data.drop (s.data.takeWhile Char.isDigit).length).head? with - | c
    · simp [extract_version, h1, hh] at h
    · by_cases hc : c = '_'
      · subst hc
        have hsplit : s.data = s.data.takeWhile Char.isDigit ++ s.data.dropWhile Char.isDigit :=
          (List.takeWhile_append_dropWhile Char.isDigit s.data).symm
        have hdrop : s.data.drop (s.data.takeWhile Char.isDigit).length =
            s.data.dropWhile Char.isDigit := by
          nth_rewrite 2 [hsplit]
          exact List.drop_left _ _
        rw [hdrop] at hh
        cases hdw : s.data.dropWhile Char.isDigit with
        | nil => rw [hdw] at hh; simp at hh
        | cons d dtail =>
          rw [hdw] at hh
          simp only [List.head?_cons, Option.some.injEq] at hh
          subst hh
          refine ⟨s.data.takeWhile Char.isDigit, dtail, h1, ?_, ?_⟩
          · intro c hc
            exact List.mem_takeWhile_imp hc
          · conv_lhs => rw [hsplit]
            rw [hdw]
      · simp [extract_version, h1, hh, hc] at h

theorem extract_version_eq_zero (s : String)
    (h : ¬ ∃ ds rest, ds ≠ [] ∧ (∀ c ∈ ds, c.isDigit = true) ∧ s.data = ds ++ '_' :: rest) :
    extract_version s = 0 := by
  by_contra hne
  exact h (extract_version_pos_decomp s hne)

theorem natDigitsAux_length_le (fuel : Nat) :
    ∀ n k, n < fuel → n < 10 ^ k → 0 < k → (natDigitsAux fuel n).length ≤ k := by
  induction fuel with
  | zero => intro n k h; omega
  | succ fuel ih =>
    intro n k h hk hk0
    by_cases h10 : n < 10
    · simp only [natDigitsAux, if_pos h10, List.length_singleton]
      omega
    · have hk2 : 2 ≤ k := by
        rcases Nat.lt_or_ge k 2 with hk1 | hk1
        · have hk3 : k = 1 := by omega
          subst hk3
          norm_num at hk
          omega
        · exact hk1
      have hpow : 10 ^ k = 10 ^ (k - 1) * 10 := by
        conv_lhs => rw [show k = (k - 1) + 1 by omega]
        rw [pow_succ]
      have hdiv : n / 10 < 10 ^ (k - 1) :=
        (Nat.div_lt_iff_lt_mul (by omega)).mpr (by omega)
      have hlt : n / 10 < fuel := by
        have := Nat.div_lt_self (show 0 < n by omega) (show 1 < 10 by omega)
        omega
      have := ih (n / 10) (k - 1) hlt hdiv (by omega)
      simp only [natDigitsAux, if_neg h10, List.length_append, List.length_singleton]
      omega

theorem pad3_length (n : Nat) (h : n < 1000) : (pad3 n).length = 3 := by
  have hle : (natDigits n).length ≤ 3 :=
    natDigitsAux_length_le (n + 1) n 3 (by omega) (by norm_num; omega) (by omega)
  show (pad3 n).data.length = 3
  rw [pad3_data, List.length_append, List.length_replicate]
  omega

/-! ### Discovery -/

theorem mem_discoverList (f : MigFile) (fs : List MigFile) :
    f ∈ discoverList fs ↔
      f ∈ fs ∧ endsWithSql f.name = true ∧ 0 < extract_version f.name := by
  simp only [discoverList, mem_sortLe, List.mem_filter, decide_eq_true_eq]
  tauto

theorem pairwise_discoverList (fs : List MigFile) :
    List.Pairwise (fun a b => versionLe a b = true) (discoverList fs) :=
  pairwise_sortLe versionLe versionLe_trans versionLe_total _

theorem mem_get_migration_files (f : MigFile) (st : DbState) :
    f ∈ get_migration_files st ↔
      f ∈ dirFiles st ∧ endsWithSql f.name = true ∧ 0 < extract_version f.name := by
  cases h : st.dir <;> simp [get_migration_files, dirFiles, h, mem_discoverList]

theorem pairwise_get_migration_files (st : DbState) :
    List.Pairwise (fun a b => versionLe a b = true) (get_migration_files st) := by
  cases h : st.dir <;> simp [get_migration_files, h, pairwise_discoverList]

theorem version_le_getLastD (st : DbState) (f d : MigFile)
    (hf : f ∈ get_migration_files st) :
    extract_version f.name ≤ extract_version ((get_migration_files st).getLastD d).name := by
  have := pairwise_le_getLastD versionLe versionLe_refl _
    (pairwise_get_migration_files st) d f hf
  simpa [versionLe] using this

theorem version_lt_next (st : DbState) (f : MigFile) (hf : f ∈ get_migration_files st) :
    extract_version f.name < next_version st := by
  have hne : (get_migration_files st).isEmpty = false := by
    cases h : get_migration_files st with
    | nil => rw [h] at hf; simp at hf
    | cons a l => simp [h]
  unfold next_version
  simp only [hne, Bool.false_eq_true, if_false]
  have := version_le_getLastD st f ⟨"", []⟩ hf
  omega

/-! ### State-transition lemmas for the manager operations -/

theorem ensure_dir (st : DbState) : (ensure_migrations_table st).dir = st.dir := by
  unfold ensure_migrations_table
  cases st.ledger <;> rfl

theorem ensure_tables (st : DbState) : (ensure_migrations_table st).tables = st.tables := by
  unfold ensure_migrations_table
  cases st.ledger <;> rfl

theorem ensure_isSome (st : DbState) : (ensure_migrations_table st).ledger.isSome = true := by
  unfold ensure_migrations_table
  cases h : st.ledger <;> simp [h]

theorem ensure_of_isSome (st : DbState) (h : st.ledger.isSome = true) :
    ensure_migrations_table st = st := by
  unfold ensure_migrations_table
  cases hl : st.ledger with
  | none => rw [hl] at h; simp at h
  | some rows => rfl

theorem applied_ensure (st : DbState) :
    get_applied_migrations (ensure_migrations_table st) = get_applied_migrations st := by
  unfold ensure_migrations_table get_applied_migrations ledgerRows
  cases h : st.ledger <;> simp [h]

theorem files_congr (st1 st2 : DbState) (h : st1.dir = st2.dir) :
    get_migration_files st1 = get_migration_files st2 := by
  unfold get_migration_files
  rw [h]

theorem mark_ok (v d : String) (st st2 : DbState)
    (h : mark_migration_applied v d st = .ok st2) :
    ∃ rows, st.ledger = some rows ∧ rows.any (fun r => r.1 == v) = false ∧
      st2 = { st with ledger := some (rows ++ [(v, d)]) } := by
  unfold mark_migration_applied at h
  split at h
  · simp at h
  · rename_i rows hl
    split at h
    · simp at h
    · rename_i hany
      simp only [Except.ok.injEq] at h
      have hany2 : rows.any (fun r => r.1 == v) = false := by
        cases hb : rows.any (fun r => r.1 == v)
        · rfl
        · exact absurd hb hany
      exact ⟨rows, hl, hany2, h.symm⟩

theorem safe_ok (script : List Stmt) (st st1 : DbState) (u : Unit)
    (h : safe_executescript script st = (.ok u, st1)) :
    ∃ ts, executescript script st.tables = (ts, none) ∧ st1 = { st with tables := ts } := by
  unfold safe_executescript at h
  split at h
  · rename_i ts hts
    simp only [Prod.mk.injEq] at h
    exact ⟨ts, hts, h.2.symm⟩
  · rename_i ts e0 hts
    simp at h

theorem safe_error (script : List Stmt) (st st1 : DbState) (e : String)
    (h : safe_executescript script st = (.error e, st1)) :
    ∃ ts e0, executescript script st.tables = (ts, some e0) ∧
      e = "SQL execution failed: " ++ e0 ∧ st1 = { st with tables := ts } := by
  unfold safe_executescript at h
  split at h
  · rename_i ts hts
    simp at h
  · rename_i ts e0 hts
    simp only [Prod.mk.injEq, Except.error.injEq] at h
    exact ⟨ts, e0, hts, h.1.symm, h.2.symm⟩

theorem apply_migration_ok (f : MigFile) (applied : List String) (st st2 : DbState) (b : Bool)
    (h : apply_migration f applied st = (.ok b, st2)) :
    (b = false ∧ st2 = st ∧ applied.contains (versionKey f) = true) ∨
    (b = true ∧ st2.dir = st.dir ∧ applied.contains (versionKey f) = false ∧
      ∃ rows, st.ledger = some rows ∧
        st2.ledger = some (rows ++ [(versionKey f, descOf f.name)])) := by
  unfold apply_migration at h
  split at h
  · rename_i hc
    left
    simp only [Prod.mk.injEq, Except.ok.injEq] at h
    exact ⟨h.1.symm, h.2.symm, hc⟩
  · rename_i hc
    right
    split at h
    · rename_i u st1 hs
      split at h
      · rename_i stm hm
        simp only [Prod.mk.injEq, Except.ok.injEq] at h
        obtain ⟨ts, -, hst1⟩ := safe_ok _ _ _ _ hs
        obtain ⟨rows, hrows, -, hstm⟩ := mark_ok _ _ _ _ hm
        refine ⟨h.1.symm, ?_, by simpa using hc, rows, ?_, ?_⟩
        · rw [← h.2, hstm, hst1]
        · rw [hst1] at hrows
          simpa using hrows
        · rw [← h.2, hstm]
      · rename_i e hm
        simp at h
    · rename_i e st1 hs
      split at h
      · rename_i hae
        split at h
        · rename_i stm hm
          simp only [Prod.mk.injEq, Except.ok.injEq] at h
          obtain ⟨ts, e0, -, -, hst1⟩ := safe_error _ _ _ _ hs
          obtain ⟨rows, hrows, -, hstm⟩ := mark_ok _ _ _ _ hm
          refine ⟨h.1.symm, ?_, by simpa using hc, rows, ?_, ?_⟩
          · rw [← h.2, hstm, hst1]
          · rw [hst1] at hrows
            simpa using hrows
          · rw [← h.2, hstm]
        · rename_i e2 hm
          simp at h
      · simp at h

theorem apply_migration_error (f : MigFile) (applied : List String) (st st2 : DbState)
    (e : String) (h : apply_migration f applied st = (.error e, st2)) :
    st2.ledger = st.ledger ∧ st2.dir = st.dir := by
  unfold apply_migration at h
  split at h
  · simp at h
  · split at h
    · rename_i u st1 hs
      obtain ⟨ts, -, hst1⟩ := safe_ok _ _ _ _ hs
      split at h
      · simp at h
      · simp only [Prod.mk.injEq, Except.error.injEq] at h
        rw [← h.2, hst1]
        exact ⟨rfl, rfl⟩
    · rename_i e0 st1 hs
      obtain ⟨ts, e1, -, -, hst1⟩ := safe_error _ _ _ _ hs
      split at h
      · split at h
        · simp at h
        · simp only [Prod.mk.injEq, Except.error.injEq] at h
          rw [← h.2, hst1]
          exact ⟨rfl, rfl⟩
      · simp only [Prod.mk.injEq, Except.error.injEq] at h
        rw [← h.2, hst1]
        exact ⟨rfl, rfl⟩

theorem applied_of_ledger (st : DbState) (rows : List (String × String))
    (h : st.ledger = some rows) :
    get_applied_migrations st = rows.map (fun r => r.1) := by
  unfold get_applied_migrations ledgerRows
  rw [h]

theorem applied_congr (st1 st2 : DbState) (h : st1.ledger = st2.ledger) :
    get_applied_migrations st1 = get_applied_migrations st2 := by
  unfold get_applied_migrations ledgerRows
  rw [h]

theorem run_loop_dir (pending : List MigFile) :
    ∀ applied count st res st2,
      run_loop pending applied count st = (res, st2) → st2.dir = st.dir := by
  induction pending with
  | nil =>
    intro applied count st res st2 h
    simp only [run_loop, Prod.mk.injEq] at h
    rw [← h.2]
  | cons f rest ih =>
    intro applied count st res st2 h
    rw [run_loop] at h
    rcases hap : apply_migration f applied st with ⟨r, st1⟩
    rw [hap] at h
    cases r with
    | ok b =>
      cases b with
      | true =>
        have hdir1 : st1.dir = st.dir := by
          rcases apply_migration_ok f applied st st1 true hap with ⟨hb, -, -⟩ | ⟨-, hd, -, -⟩
          · simp at hb
          · exact hd
        rw [ih _ _ _ _ _ h, hdir1]
      | false =>
        have hst1 : st1 = st := by
          rcases apply_migration_ok f applied st st1 false hap with ⟨-, he, -⟩ | ⟨hb, -, -⟩
          · exact he
          · simp at hb
        rw [ih _ _ _ _ _ h, hst1]
    | error e =>
      simp only [Prod.mk.injEq] at h
      rw [← h.2]
      exact (apply_migration_error f applied st st1 e hap).2

theorem run_loop_ok_inv (pending : List MigFile) :
    ∀ applied count st n st2,
      run_loop pending applied count st = (.ok n, st2) →
      (∀ v ∈ applied, v ∈ get_applied_migrations st) →
      (∀ v ∈ get_applied_migrations st, v ∈ get_applied_migrations st2) ∧
      (∀ f ∈ pending, versionKey f ∈ get_applied_migrations st2) ∧
      (st.ledger.isSome = true → st2.ledger.isSome = true) := by
  induction pending with
  | nil =>
    intro applied count st n st2 h hsub
    simp only [run_loop, Prod.mk.injEq] at h
    rw [← h.2]
    exact ⟨fun v hv => hv, by simp, fun hv => hv⟩
  | cons f rest ih =>
    intro applied count st n st2 h hsub
    rw [run_loop] at h
    rcases hap : apply_migration f applied st with ⟨r, st1⟩
    rw [hap] at h
    cases r with
    | ok b =>
      cases b with
      | true =>
        rcases apply_migration_ok f applied st st1 true hap with ⟨hb, -, -⟩ |
          ⟨-, hdir, hcon, rows, hrows, hst1led⟩
        · simp at hb
        · have happl : get_applied_migrations st1 =
              get_applied_migrations st ++ [versionKey f] := by
            rw [applied_of_ledger st1 _ hst1led, applied_of_ledger st rows hrows,
              List.map_append]
            rfl
          have hsub1 : ∀ v ∈ applied ++ [versionKey f], v ∈ get_applied_migrations st1 := by
            intro v hv
            rw [happl]
            rcases List.mem_append.mp hv with hv | hv
            · exact List.mem_append.mpr (Or.inl (hsub v hv))
            · exact List.mem_append.mpr (Or.inr hv)
          obtain ⟨mono1, pend1, some1⟩ := ih _ _ _ _ _ h hsub1
          refine ⟨?_, ?_, ?_⟩
          · intro v hv
            exact mono1 v (by rw [happl]; exact List.mem_append.mpr (Or.inl hv))
          · intro g hg
            rcases List.mem_cons.mp hg with rfl | hg
            · exact mono1 _ (by rw [happl]; exact List.mem_append.mpr (Or.inr (by simp)))
            · exact pend1 g hg
          · intro hso
            exact some1 (by rw [hst1led]; rfl)
      | false =>
        have hcon : applied.contains (versionKey f) = true := by
          rcases apply_migration_ok f applied st st1 false hap with ⟨-, -, hc⟩ | ⟨hb, -, -⟩
          · exact hc
          · simp at hb
        have hst1 : st1 = st := by
          rcases apply_migration_ok f applied st st1 false hap with ⟨-, he, -⟩ | ⟨hb, -, -⟩
          · exact he
          · simp at hb
        subst hst1
        obtain ⟨mono1, pend1, some1⟩ := ih _ _ _ _ _ h hsub
        refine ⟨mono1, ?_, some1⟩
        intro g hg
        rcases List.mem_cons.mp hg with rfl | hg
        · have : versionKey g ∈ applied := by
            simpa using hcon
          exact mono1 _ (hsub _ this)
        · exact pend1 g hg
    | error e =>
      simp only [Prod.mk.injEq] at h
      exact absurd h.1 (by simp)

theorem run_loop_versions (pending : List MigFile) :
    ∀ applied count st res st2,
      run_loop pending applied count st = (res, st2) →
      ∀ v ∈ get_applied_migrations st2,
        v ∈ get_applied_migrations st ∨ ∃ f ∈ pending, v = versionKey f := by
  induction pending with
  | nil =>
    intro applied count st res st2 h v hv
    simp only [run_loop, Prod.mk.injEq] at h
    rw [← h.2] at hv
    exact Or.inl hv
  | cons f rest ih =>
    intro applied count st res st2 h v hv
    rw [run_loop] at h
    rcases hap : apply_migration f applied st with ⟨r, st1⟩
    rw [hap] at h
    cases r with
    | ok b =>
      cases b with
      | true =>
        rcases apply_migration_ok f applied st st1 true hap with ⟨hb, -, -⟩ |
          ⟨-, -, -, rows, hrows, hst1led⟩
        · simp at hb
        · have happl : get_applied_migrations st1 =
              get_applied_migrations st ++ [versionKey f] := by
            rw [applied_of_ledger st1 _ hst1led, applied_of_ledger st rows hrows,
              List.map_append]
            rfl
          rcases ih _ _ _ _ _ h v hv with hv1 | ⟨g, hg, hvg⟩
          · rw [happl] at hv1
            rcases List.mem_append.mp hv1 with hv1 | hv1
            · exact Or.inl hv1
            · exact Or.inr ⟨f, by simp, by simpa using hv1⟩
          · exact Or.inr ⟨g, by simp [hg], hvg⟩
      | false =>
        have hst1 : st1 = st := by
          rcases apply_migration_ok f applied st st1 false hap with ⟨-, he, -⟩ | ⟨hb, -, -⟩
          · exact he
          · simp at hb
        subst hst1
        rcases ih _ _ _ _ _ h v hv with hv1 | ⟨g, hg, hvg⟩
        · exact Or.inl hv1
        · exact Or.inr ⟨g, by simp [hg], hvg⟩
    | error e =>
      simp only [Prod.mk.injEq] at h
      rw [← h.2] at hv
      have := (apply_migration_error f applied st st1 e hap).1
      rw [applied_congr st1 st this] at hv
      exact Or.inl hv

theorem mark_applied_eq (v d : String) (st : DbState) (rows : List (String × String))
    (h1 : st.ledger = some rows) (h2 : rows.any (fun r => r.1 == v) = false) :
    mark_migration_applied v d st = .ok { st with ledger := some (rows ++ [(v, d)]) } := by
  unfold mark_migration_applied
  simp only [h1, h2, Bool.false_eq_true, if_false]

theorem apply_migration_skip (f : MigFile) (applied : List String) (st : DbState)
    (h : applied.contains (versionKey f) = true) :
    apply_migration f applied st = (.ok false, st) := by
  unfold apply_migration
  simp only [h, if_true]

theorem apply_migration_success (f : MigFile) (applied : List String) (st : DbState)
    (ts : List String) (rows : List (String × String))
    (h1 : applied.contains (versionKey f) = false)
    (h2 : executescript f.script st.tables = (ts, none))
    (h3 : st.ledger = some rows)
    (h4 : rows.any (fun r => r.1 == versionKey f) = false) :
    apply_migration f applied st =
      (.ok true, { st with tables := ts, ledger := some (rows ++ [(versionKey f, descOf f.name)]) }) := by
  have hm := mark_applied_eq (versionKey f) (descOf f.name) { st with tables := ts } rows h3 h4
  unfold apply_migration safe_executescript
  simp only [h1, h2, Bool.false_eq_true, if_false, hm]

theorem apply_migration_fatal (f : MigFile) (applied : List String) (st : DbState)
    (ts : List String) (e : String)
    (h1 : applied.contains (versionKey f) = false)
    (h2 : executescript f.script st.tables = (ts, some e))
    (h3 : containsSub "already exists" (lowerStr ("SQL execution failed: " ++ e)) = false) :
    apply_migration f applied st =
      (.error ("SQL execution failed: " ++ e), { st with tables := ts }) := by
  unfold apply_migration safe_executescript
  simp only [h1, h2, h3, Bool.false_eq_true, if_false]

theorem apply_migration_tolerated (f : MigFile) (applied : List String) (st : DbState)
    (ts : List String) (e : String) (rows : List (String × String))
    (h1 : applied.contains (versionKey f) = false)
    (h2 : executescript f.script st.tables = (ts, some e))
    (h3 : containsSub "already exists" (lowerStr ("SQL execution failed: " ++ e)) = true)
    (h4 : st.ledger = some rows)
    (h5 : rows.any (fun r => r.1 == versionKey f) = false) :
    apply_migration f applied st =
      (.ok true, { st with tables := ts, ledger := some (rows ++ [(versionKey f, descOf f.name)]) }) := by
  have hm := mark_applied_eq (versionKey f) (descOf f.name) { st with tables := ts } rows h4 h5
  unfold apply_migration safe_executescript
  simp only [h1, h2, h3, Bool.false_eq_true, if_false, if_true, hm]

/-! ### The claims -/

/-- C1 (code bug, at the failing input): pending versions `[1, 2, 3]` on a
fresh database, version 2's script being `CREATE TABLE extra;` followed by
invalid SQL.  The run does record version 1 only, propagates the error and
never attempts version 3 — but the schema-level side effect of version 2's
completed first statement (the table `extra`) is NOT rolled back: it stays
committed, because `executescript` auto-commits each completed statement
and the `conn.rollback()` the code (and its docstring "Execute SQL with
rollback on error") relies on undoes nothing.  This contradicts the
claim's rollback conjunct while witnessing its remaining conjuncts. -/
theorem C1_partial_failure_bug :
    run_migrations
        ⟨some [⟨"001_one.sql", [.createTable "users"]⟩,
               ⟨"002_two.sql", [.createTable "extra", .sqlError "near bad: syntax error"]⟩,
               ⟨"003_three.sql", [.createTable "t3"]⟩], none, []⟩
      = (.error "SQL execution failed: near bad: syntax error",
         ⟨some [⟨"001_one.sql", [.createTable "users"]⟩,
                ⟨"002_two.sql", [.createTable "extra", .sqlError "near bad: syntax error"]⟩,
                ⟨"003_three.sql", [.createTable "t3"]⟩],
          some [("001", "one")], ["users", "extra"]⟩) ∧
    "extra" ∈ (run_migrations
        ⟨some [⟨"001_one.sql", [.createTable "users"]⟩,
               ⟨"002_two.sql", [.createTable "extra", .sqlError "near bad: syntax error"]⟩,
               ⟨"003_three.sql", [.createTable "t3"]⟩], none, []⟩).2.tables := by
  decide

/-- C2: a pending migration whose script execution fails with a failure
message containing "already exists" is treated as non-fatal:
`apply_migration` still calls `mark_migration_applied` so the version is
recorded in the ledger, returns success (`True`), and `run()`'s loop
proceeds to the next pending file.  The state carried forward is the one
the connection is actually left in (`st1`, including any schema effects
the script committed before failing — they are not undone). -/
theorem C2_already_exists_tolerated (f : MigFile) (applied : List String) (st st1 : DbState)
    (e : String) (rows : List (String × String))
    (h1 : applied.contains (versionKey f) = false)
    (h2 : safe_executescript f.script st = (.error e, st1))
    (h3 : containsSub "already exists" (lowerStr e) = true)
    (h4 : st.ledger = some rows)
    (h5 : rows.any (fun r => r.1 == versionKey f) = false) :
    apply_migration f applied st =
      (.ok true, { st1 with ledger := some (rows ++ [(versionKey f, descOf f.name)]) }) ∧
    ∀ (rest : List MigFile) (count : Nat),
      run_loop (f :: rest) applied count st =
        run_loop rest (applied ++ [versionKey f]) (count + 1)
          { st1 with ledger := some (rows ++ [(versionKey f, descOf f.name)]) } := by
  obtain ⟨ts, e0, hts, hee, hst1⟩ := safe_error f.script st st1 e h2
  subst hst1
  subst hee
  have hap := apply_migration_tolerated f applied st ts e0 rows h1 hts h3 h4 h5
  refine ⟨hap, ?_⟩
  intro rest count
  simp only [run_loop, hap]

/-- Witness for C2: re-running `CREATE TABLE extra; CREATE TABLE users`
when `users` already exists: the version is recorded as applied, success
is returned, and the partial effect `extra` stays committed. -/
theorem C2_already_exists_tolerated_witness :
    apply_migration ⟨"001_users.sql", [.createTable "extra", .createTable "users"]⟩ []
        ⟨some [⟨"001_users.sql", [.createTable "extra", .createTable "users"]⟩],
         some [], ["users"]⟩ =
      (.ok true,
        ⟨some [⟨"001_users.sql", [.createTable "extra", .createTable "users"]⟩],
         some [("001", "users")], ["users", "extra"]⟩) := by
  have h := C2_already_exists_tolerated
    ⟨"001_users.sql", [.createTable "extra", .createTable "users"]⟩ []
    ⟨some [⟨"001_users.sql", [.createTable "extra", .createTable "users"]⟩],
     some [], ["users"]⟩
    ⟨some [⟨"001_users.sql", [.createTable "extra", .createTable "users"]⟩],
     some [], ["users", "extra"]⟩
    "SQL execution failed: table users already exists" [] (by decide) (by decide) (by decide)
    (by decide) (by decide)
  exact h.1

/-- C3: discovery returns `[]` when the directory does not exist; otherwise
it returns exactly the `*.sql` files whose extracted version is non-zero,
sorted ascending by numeric version; on versions `{3, 1, 10, 2}` the order
is `1, 2, 3, 10`. -/
theorem C3_discovery_spec :
    (∀ st : DbState, st.dir = none → get_migration_files st = []) ∧
    (∀ (st : DbState) (fs : List MigFile), st.dir = some fs →
      ∀ f : MigFile, f ∈ get_migration_files st ↔
        f ∈ fs ∧ endsWithSql f.name = true ∧ 0 < extract_version f.name) ∧
    (∀ st : DbState, List.Pairwise
      (fun a b => extract_version a.name ≤ extract_version b.name)
      (get_migration_files st)) ∧
    get_migration_files
        ⟨some [⟨"003_c.sql", []⟩, ⟨"001_a.sql", []⟩, ⟨"010_j.sql", []⟩, ⟨"002_b.sql", []⟩],
         none, []⟩
      = [⟨"001_a.sql", []⟩, ⟨"002_b.sql", []⟩, ⟨"003_c.sql", []⟩, ⟨"010_j.sql", []⟩] := by
  refine ⟨?_, ?_, ?_, by decide⟩
  · intro st h
    simp [get_migration_files, h]
  · intro st fs h f
    rw [mem_get_migration_files]
    simp [dirFiles, h]
  · intro st
    refine (pairwise_get_migration_files st).imp ?_
    intro a b hab
    simpa [versionLe] using hab

/-- Witness for C3: a missing directory yields no files, and a present file
with valid version is discovered. -/
theorem C3_discovery_spec_witness :
    get_migration_files ⟨none, none, []⟩ = [] ∧
    ((⟨"001_a.sql", []⟩ : MigFile) ∈ get_migration_files ⟨some [⟨"001_a.sql", []⟩], none, []⟩) := by
  constructor
  · exact C3_discovery_spec.1 ⟨none, none, []⟩ rfl
  · exact (C3_discovery_spec.2.1 ⟨some [⟨"001_a.sql", []⟩], none, []⟩ [⟨"001_a.sql", []⟩] rfl
      ⟨"001_a.sql", []⟩).mpr ⟨by decide, by decide, by decide⟩

/-- C8: `extract_version` returns the numeric value of a leading digit run
immediately followed by `'_'`, and `0` when no such prefix exists; the
canonical ledger key is the version zero-padded to (a minimum of) 3 digits,
which round-trips through `natValue` and has exactly 3 characters for all
versions below 1000. -/
theorem C8_extract_version_spec :
    (∀ ds rest : List Char, ds ≠ [] → (∀ c ∈ ds, c.isDigit = true) →
      extract_version (String.mk (ds ++ '_' :: rest)) = natValue ds) ∧
    (∀ s : String,
      (¬ ∃ ds rest, ds ≠ [] ∧ (∀ c ∈ ds, c.isDigit = true) ∧ s.data = ds ++ '_' :: rest) →
      extract_version s = 0) ∧
    (∀ f : MigFile, versionKey f = pad3 (extract_version f.name)) ∧
    (∀ n : Nat, natValue (pad3 n).data = n) ∧
    (∀ n : Nat, n < 1000 → (pad3 n).length = 3) :=
  ⟨extract_version_of_digits, extract_version_eq_zero, fun _ => rfl, natValue_pad3, pad3_length⟩

/-- Witness for C8 at concrete names. -/
theorem C8_extract_version_spec_witness :
    extract_version (String.mk (['0', '4', '2'] ++ '_' :: "add.sql".data))
      = natValue ['0', '4', '2'] ∧
    extract_version "init.sql" = 0 ∧
    (pad3 42).length = 3 := by
  refine ⟨C8_extract_version_spec.1 ['0', '4', '2'] "add.sql".data (by decide) (by decide),
    ?_, C8_extract_version_spec.2.2.2.2 42 (by decide)⟩
  refine C8_extract_version_spec.2.1 "init.sql" ?_
  rintro ⟨ds, rest, hne, hdig, hd⟩
  have hu : ('_' : Char) ∈ "init.sql".data := by
    rw [hd]
    simp
  exact absurd hu (by decide)

theorem pad3_eq_000 (n : Nat) (h : pad3 n = "000") : n = 0 := by
  have := pad3_inj n 0 (by rw [h]; decide)
  exact this

theorem delete_migration_not_found (v : String) (st : DbState)
    (hfind : (get_migration_files st).find? (fun f => versionKey f == v) = none) :
    delete_migration v st = st := by
  unfold delete_migration
  simp only [hfind]

theorem delete_migration_found (v : String) (st : DbState) (target : MigFile)
    (fs : List MigFile)
    (hfind : (get_migration_files st).find? (fun f => versionKey f == v) = some target)
    (hd : st.dir = some fs) :
    delete_migration v st =
      ⟨some (fs.filter (fun g => !(g.name == target.name))),
       some ((ledgerRows st).filter (fun r => !(r.1 == v))), st.tables⟩ := by
  unfold delete_migration ensure_migrations_table ledgerRows
  cases hl : st.ledger with
  | none => simp [hfind, hd, hl]
  | some rows => simp [hfind, hd, hl]

/-- C9: a file whose name has a `0_`-style prefix (version value zero) is
excluded from discovery, never listed, never recorded by a run, and
survives any `delete_migration` untouched. -/
theorem C9_zero_version_excluded :
    extract_version "0_init.sql" = 0 ∧
    extract_version "000_init.sql" = 0 ∧
    (∀ (f : MigFile) (st : DbState), extract_version f.name = 0 →
      f ∉ get_migration_files st) ∧
    (∀ (st : DbState) (entry : String × String × Bool),
      entry ∈ (list_migrations st).1 → entry.1 ≠ "000") ∧
    (∀ (st : DbState) (res : Except String Nat) (st2 : DbState),
      run_migrations st = (res, st2) →
      "000" ∈ get_applied_migrations st2 → "000" ∈ get_applied_migrations st) ∧
    (∀ (v : String) (st : DbState) (f : MigFile), extract_version f.name = 0 →
      f ∈ dirFiles st → f ∈ dirFiles (delete_migration v st)) := by
  refine ⟨by decide, by decide, ?_, ?_, ?_, ?_⟩
  · intro f st h0 hmem
    have := (mem_get_migration_files f st).mp hmem
    omega
  · intro st entry he
    simp only [list_migrations, List.mem_map] at he
    obtain ⟨f, hf, rfl⟩ := he
    have hpos := ((mem_get_migration_files f _).mp hf).2.2
    intro hk
    have : extract_version f.name = 0 := pad3_eq_000 _ hk
    omega
  · intro st res st2 h hv
    simp only [run_migrations] at h
    split at h
    · simp only [Prod.mk.injEq] at h
      rw [← h.2] at hv
      rw [applied_ensure] at hv
      exact hv
    · split at h
      · simp only [Prod.mk.injEq] at h
        rw [← h.2] at hv
        rw [applied_ensure] at hv
        exact hv
      · rcases run_loop_versions _ _ _ _ _ _ h _ hv with hv1 | ⟨f, hf, hvf⟩
        · rw [applied_ensure] at hv1
          exact hv1
        · have hfm : f ∈ get_migration_files (ensure_migrations_table st) :=
            List.mem_of_mem_filter hf
          have hpos := ((mem_get_migration_files f _).mp hfm).2.2
          have : extract_version f.name = 0 := pad3_eq_000 _ hvf.symm
          omega
  · intro v st f h0 hdir
    cases hfind : (get_migration_files st).find? (fun g => versionKey g == v) with
    | none =>
      rw [delete_migration_not_found v st hfind]
      exact hdir
    | some target =>
      have htm : target ∈ get_migration_files st := List.mem_of_find?_eq_some hfind
      have hpos := ((mem_get_migration_files target st).mp htm).2.2
      have hfd := ((mem_get_migration_files target st).mp htm).1
      cases hd : st.dir with
      | none =>
        unfold dirFiles at hfd
        rw [hd] at hfd
        simp at hfd
      | some fs =>
        have hdir2 : f ∈ fs := by
          unfold dirFiles at hdir
          rw [hd] at hdir
          exact hdir
        rw [delete_migration_found v st target fs hfind hd]
        have hne : ¬(f.name == target.name) = true := by
          intro hb
          have hfn : f.name = target.name := by simpa using hb
          rw [hfn] at h0
          omega
        exact List.mem_filter.mpr ⟨hdir2, by simpa using hne⟩

/-- Witness for C9: a directory holding only `0_init.sql`. -/
theorem C9_zero_version_excluded_witness :
    ((⟨"0_init.sql", []⟩ : MigFile) ∉
      get_migration_files ⟨some [⟨"0_init.sql", []⟩], none, []⟩) ∧
    ((⟨"0_init.sql", []⟩ : MigFile) ∈
      dirFiles (delete_migration "000" ⟨some [⟨"0_init.sql", []⟩], none, []⟩)) := by
  constructor
  · exact C9_zero_version_excluded.2.2.1 ⟨"0_init.sql", []⟩
      ⟨some [⟨"0_init.sql", []⟩], none, []⟩ (by decide)
  · exact C9_zero_version_excluded.2.2.2.2.2 "000" ⟨some [⟨"0_init.sql", []⟩], none, []⟩
      ⟨"0_init.sql", []⟩ (by decide) (by decide)

/-- C7: `delete_migration` with no matching discovered version mutates
nothing at all; with a match, the matched file disappears from the
directory (other files kept), any ledger record for that version
disappears (other records kept), and the schema tables are untouched. -/
theorem C7_delete_migration_spec :
    (∀ (v : String) (st : DbState),
      (∀ f ∈ get_migration_files st, versionKey f ≠ v) → delete_migration v st = st) ∧
    (∀ (v : String) (st : DbState) (target : MigFile),
      (get_migration_files st).find? (fun f => versionKey f == v) = some target →
      (delete_migration v st).tables = st.tables ∧
      (∀ g : MigFile, g ∈ dirFiles (delete_migration v st) ↔
        g ∈ dirFiles st ∧ g.name ≠ target.name) ∧
      (∀ r : String × String, r ∈ ledgerRows (delete_migration v st) ↔
        r ∈ ledgerRows st ∧ r.1 ≠ v)) := by
  constructor
  · intro v st hnone
    refine delete_migration_not_found v st (List.find?_eq_none.mpr ?_)
    intro f hf
    simp only [beq_iff_eq]
    exact hnone f hf
  · intro v st target hfind
    have htm : target ∈ get_migration_files st := List.mem_of_find?_eq_some hfind
    have hfd := ((mem_get_migration_files target st).mp htm).1
    cases hd : st.dir with
    | none =>
      unfold dirFiles at hfd
      rw [hd] at hfd
      simp at hfd
    | some fs =>
      rw [delete_migration_found v st target fs hfind hd]
      refine ⟨rfl, ?_, ?_⟩
      · intro g
        unfold dirFiles
        rw [hd]
        simp [List.mem_filter]
      · intro r
        simp [ledgerRows, List.mem_filter]

/-- Witness for C7: both branches at concrete states. -/
theorem C7_delete_migration_spec_witness :
    delete_migration "005" ⟨some [⟨"002_b.sql", []⟩], none, []⟩
      = ⟨some [⟨"002_b.sql", []⟩], none, []⟩ ∧
    ((⟨"002_b.sql", []⟩ : MigFile) ∉
      dirFiles (delete_migration "002" ⟨some [⟨"002_b.sql", []⟩], some [("002", "b")], []⟩)) := by
  constructor
  · exact C7_delete_migration_spec.1 "005" ⟨some [⟨"002_b.sql", []⟩], none, []⟩ (by decide)
  · intro hmem
    have h := (C7_delete_migration_spec.2 "002"
      ⟨some [⟨"002_b.sql", []⟩], some [("002", "b")], []⟩ ⟨"002_b.sql", []⟩ (by decide)).2.1
      ⟨"002_b.sql", []⟩
    have := (h.mp hmem).2
    exact this rfl

/-- C5 counterexample: with applied versions `"999"` and `"1000"`, the
numerically highest version is 1000, yet `rollback_last` with the unsafe
flag deletes the record for `"999"` (the lexicographically greatest string)
and keeps `"1000"` — refuting the claim that the record for the numerically
highest applied version is deleted. -/
theorem C5_rollback_last_counterexample :
    rollback_last true ⟨some [], some [("999", "a"), ("1000", "b")], []⟩
      = ⟨some [], some [("1000", "b")], []⟩ ∧
    natValue "999".data < natValue "1000".data := by decide

/-- C5 (amended): `rollback_last` without the unsafe flag changes nothing;
with the flag on a non-empty applied set it deletes exactly the ledger
record(s) of the LEXICOGRAPHICALLY greatest applied version string — which
coincides with the numerically highest only while every applied version is
a zero-padded 3-digit string — touching neither files nor schema tables. -/
theorem C5_rollback_last_spec :
    (∀ st : DbState, rollback_last false st = st) ∧
    (∀ st : DbState, get_applied_migrations st ≠ [] →
      ∃ m, m ∈ get_applied_migrations st ∧
        (∀ v ∈ get_applied_migrations st, strLe v m = true) ∧
        rollback_last true st =
          { st with ledger := st.ledger.map (fun rows => rows.filter (fun r => !(r.1 == m))) }) := by
  constructor
  · intro st
    unfold rollback_last
    cases h : (sortStrings (get_applied_migrations st)).isEmpty <;> simp [h]
  · intro st hne
    have hmem0 : ∃ a, a ∈ get_applied_migrations st := by
      cases hap : get_applied_migrations st with
      | nil => exact absurd hap hne
      | cons a l => exact ⟨a, by simp⟩
    obtain ⟨a, ha⟩ := hmem0
    have hasort : a ∈ sortLe strLe (get_applied_migrations st) :=
      (mem_sortLe strLe a _).mpr ha
    have hsne : sortLe strLe (get_applied_migrations st) ≠ [] := by
      intro hnil
      rw [hnil] at hasort
      simp at hasort
    refine ⟨(sortLe strLe (get_applied_migrations st)).getLastD "", ?_, ?_, ?_⟩
    · exact (mem_sortLe strLe _ _).mp (getLastD_mem _ "" hsne)
    · intro v hv
      exact pairwise_le_getLastD strLe strLe_refl _
        (pairwise_sortLe strLe strLe_trans strLe_total _) "" v
        ((mem_sortLe strLe v _).mpr hv)
    · have hie : (sortLe strLe (get_applied_migrations st)).isEmpty = false := by
        cases hs : sortLe strLe (get_applied_migrations st) with
        | nil => exact absurd hs hsne
        | cons b l => rfl
      unfold rollback_last sortStrings
      simp only [hie, Bool.false_eq_true, if_false, Bool.not_true]

/-- Witness for the amended C5 at a concrete two-version ledger. -/
theorem C5_rollback_last_spec_witness :
    get_applied_migrations ⟨none, some [("001", "a"), ("002", "b")], []⟩ ≠ [] ∧
    ∃ m, m ∈ get_applied_migrations ⟨none, some [("001", "a"), ("002", "b")], []⟩ ∧
      (∀ v ∈ get_applied_migrations ⟨none, some [("001", "a"), ("002", "b")], []⟩,
        strLe v m = true) ∧
      rollback_last true ⟨none, some [("001", "a"), ("002", "b")], []⟩ =
        { dir := none, ledger := (some [("001", "a"), ("002", "b")] :
            Option (List (String × String))).map (fun rows => rows.filter (fun r => !(r.1 == m))),
          tables := [] } :=
  ⟨by decide, C5_rollback_last_spec.2 ⟨none, some [("001", "a"), ("002", "b")], []⟩ (by decide)⟩

/-- C6: `create_migration` computes the next version (1 on an empty set,
max existing + 1 otherwise), and names the new file
`<zero-padded version>_<slug>.sql` where the slug lower-cases the
description, turns spaces into underscores and strips everything outside
`[a-z0-9_]` (so "Add Users!!" becomes `add_users`); the new file lands in
the directory. -/
theorem C6_create_migration_spec :
    (∀ (st : DbState) (d : String),
      (create_migration d st).1 = pad3 (next_version st) ++ "_" ++ slugify d ++ ".sql") ∧
    (∀ st : DbState, get_migration_files st = [] → next_version st = 1) ∧
    (∀ st : DbState, get_migration_files st ≠ [] →
      ∃ f ∈ get_migration_files st, next_version st = extract_version f.name + 1 ∧
        ∀ g ∈ get_migration_files st, extract_version g.name < next_version st) ∧
    slugify "Add Users!!" = "add_users" ∧
    (∀ (st : DbState) (d : String),
      (⟨(create_migration d st).1, migrationTemplate⟩ : MigFile) ∈
        dirFiles (create_migration d st).2) := by
  refine ⟨fun st d => rfl, ?_, ?_, by decide, ?_⟩
  · intro st h
    unfold next_version
    simp [h]
  · intro st hne
    have hie : (get_migration_files st).isEmpty = false := by
      cases hs : get_migration_files st with
      | nil => exact absurd hs hne
      | cons a l => rfl
    refine ⟨(get_migration_files st).getLastD ⟨"", []⟩, getLastD_mem _ _ hne, ?_, ?_⟩
    · unfold next_version
      simp only [hie, Bool.false_eq_true, if_false]
    · intro g hg
      exact version_lt_next st g hg
  · intro st d
    cases hd : st.dir with
    | none => simp [create_migration, dirFiles, writeFileToDir, hd]
    | some fs => simp [create_migration, dirFiles, writeFileToDir, hd]

/-- Witness for C6: "Add Users!!" over a directory holding `002_b.sql`. -/
theorem C6_create_migration_spec_witness :
    (create_migration "Add Users!!" ⟨some [⟨"002_b.sql", []⟩], none, []⟩).1
      = pad3 (next_version ⟨some [⟨"002_b.sql", []⟩], none, []⟩) ++ "_" ++
        slugify "Add Users!!" ++ ".sql" ∧
    next_version ⟨none, none, []⟩ = 1 ∧
    (∃ f ∈ get_migration_files ⟨some [⟨"002_b.sql", []⟩], none, []⟩,
      next_version ⟨some [⟨"002_b.sql", []⟩], none, []⟩ = extract_version f.name + 1 ∧
      ∀ g ∈ get_migration_files ⟨some [⟨"002_b.sql", []⟩], none, []⟩,
        extract_version g.name < next_version ⟨some [⟨"002_b.sql", []⟩], none, []⟩) :=
  ⟨C6_create_migration_spec.1 ⟨some [⟨"002_b.sql", []⟩], none, []⟩ "Add Users!!",
   C6_create_migration_spec.2.1 ⟨none, none, []⟩ (by decide),
   C6_create_migration_spec.2.2.1 ⟨some [⟨"002_b.sql", []⟩], none, []⟩ (by decide)⟩

/-- C4: a successful `run_migrations` followed by another run with no new
files makes the second run apply 0 migrations, return 0, and leave the
state — in particular the set of recorded versions — unchanged. -/
theorem C4_run_idempotent (st : DbState) (n : Nat) (st2 : DbState)
    (h : run_migrations st = (.ok n, st2)) :
    run_migrations st2 = (.ok 0, st2) := by
  simp only [run_migrations] at h
  split at h
  · rename_i hfe
    simp only [Prod.mk.injEq, Except.ok.injEq] at h
    obtain ⟨-, hst2⟩ := h
    subst hst2
    have hens : ensure_migrations_table (ensure_migrations_table st)
        = ensure_migrations_table st := ensure_of_isSome _ (ensure_isSome st)
    simp only [run_migrations, hens, hfe, if_true]
  · rename_i hfe
    have hfe2 : (get_migration_files (ensure_migrations_table st)).isEmpty = false := by
      cases hs : (get_migration_files (ensure_migrations_table st)).isEmpty with
      | false => rfl
      | true => exact absurd hs hfe
    split at h
    · rename_i hpe
      simp only [Prod.mk.injEq, Except.ok.injEq] at h
      obtain ⟨-, hst2⟩ := h
      subst hst2
      have hens : ensure_migrations_table (ensure_migrations_table st)
          = ensure_migrations_table st := ensure_of_isSome _ (ensure_isSome st)
      simp only [run_migrations, hens, hfe2, Bool.false_eq_true, if_false, hpe, if_true]
    · obtain ⟨mono, pend, someP⟩ := run_loop_ok_inv _ _ _ _ _ _ h (fun v hv => hv)
      have hdir : st2.dir = (ensure_migrations_table st).dir :=
        run_loop_dir _ _ _ _ _ _ h
      have hfiles : get_migration_files st2
          = get_migration_files (ensure_migrations_table st) :=
        files_congr st2 (ensure_migrations_table st) hdir
      have hiso : st2.ledger.isSome = true := someP (ensure_isSome st)
      have hens2 : ensure_migrations_table st2 = st2 := ensure_of_isSome st2 hiso
      have hnil : (get_migration_files (ensure_migrations_table st)).filter
          (fun f => !((get_applied_migrations st2).contains (versionKey f))) = [] := by
        rw [List.filter_eq_nil_iff]
        intro f hf
        have hkey : versionKey f ∈ get_applied_migrations st2 := by
          by_cases hc : (get_applied_migrations (ensure_migrations_table st)).contains
              (versionKey f) = true
          · exact mono _ (by simpa using hc)
          · refine pend f (List.mem_filter.mpr ⟨hf, ?_⟩)
            cases hcc : (get_applied_migrations (ensure_migrations_table st)).contains
                (versionKey f) with
            | false => rfl
            | true => exact absurd hcc hc
        simp [hkey]
      simp only [run_migrations, hens2, hfiles, hfe2, Bool.false_eq_true, if_false, hnil,
        List.isEmpty_nil, if_true]

/-- Witness for C4: a one-file directory; the first run applies it, the
second run applies nothing and returns the same state. -/
theorem C4_run_idempotent_witness :
    run_migrations ⟨some [⟨"001_a.sql", [.createTable "t"]⟩], none, []⟩
      = (.ok 1, ⟨some [⟨"001_a.sql", [.createTable "t"]⟩], some [("001", "a")], ["t"]⟩) ∧
    run_migrations ⟨some [⟨"001_a.sql", [.createTable "t"]⟩], some [("001", "a")], ["t"]⟩
      = (.ok 0, ⟨some [⟨"001_a.sql", [.createTable "t"]⟩], some [("001", "a")], ["t"]⟩) :=
  ⟨by decide, C4_run_idempotent ⟨some [⟨"001_a.sql", [.createTable "t"]⟩], none, []⟩ 1
    ⟨some [⟨"001_a.sql", [.createTable "t"]⟩], some [("001", "a")], ["t"]⟩ (by decide)⟩

theorem extract_version_pad3_prefix (n : Nat) (s2 : String) :
    extract_version (pad3 n ++ "_" ++ s2) = n := by
  have hd : (pad3 n ++ "_" ++ s2).data = (pad3 n).data ++ '_' :: s2.data := by
    simp only [String.data_append, List.append_assoc]
    rfl
  have h := extract_version_of_digits (pad3 n).data s2.data (pad3_ne_nil n) (pad3_isDigit n)
  rw [natValue_pad3] at h
  have hmk : String.mk ((pad3 n).data ++ '_' :: s2.data) = pad3 n ++ "_" ++ s2 := by
    rw [← hd]
  rw [← hmk]
  exact h

theorem listIsPrefix_self_append (p r : List Char) : listIsPrefix p (p ++ r) = true := by
  induction p with
  | nil => rfl
  | cons c cs ih => simp [listIsPrefix, ih]

theorem endsWithSql_append (x : String) : endsWithSql (x ++ ".sql") = true := by
  unfold endsWithSql
  have hd : (x ++ ".sql").data.reverse = ".sql".data.reverse ++ x.data.reverse := by
    rw [String.data_append, List.reverse_append]
  rw [hd]
  exact listIsPrefix_self_append _ _

theorem next_version_pos (st : DbState) : 0 < next_version st := by
  unfold next_version
  cases h : (get_migration_files st).isEmpty <;> simp [h]

theorem next_version_eq (st : DbState) (h : get_migration_files st ≠ []) :
    next_version st
      = extract_version ((get_migration_files st).getLastD ⟨"", []⟩).name + 1 := by
  have hie : (get_migration_files st).isEmpty = false := by
    cases hs : get_migration_files st with
    | nil => exact absurd hs h
    | cons a l => rfl
  unfold next_version
  simp only [hie, Bool.false_eq_true, if_false]

/-- C10: the file written by `create_migration` carries a name from which
`extract_version` recovers exactly the (strictly positive) computed next
version; the new file is discovered immediately afterwards, and a second
`create_migration` would compute the previous next version plus one. -/
theorem C10_create_roundtrip (d : String) (st : DbState) :
    0 < next_version st ∧
    extract_version (create_migration d st).1 = next_version st ∧
    ((⟨(create_migration d st).1, migrationTemplate⟩ : MigFile) ∈
      get_migration_files (create_migration d st).2) ∧
    next_version (create_migration d st).2 = next_version st + 1 := by
  have hn := next_version_pos st
  have hassoc : pad3 (next_version st) ++ "_" ++ slugify d ++ ".sql"
      = pad3 (next_version st) ++ "_" ++ (slugify d ++ ".sql") := by
    rw [String.append_assoc]
  have hev2 : extract_version (pad3 (next_version st) ++ "_" ++ slugify d ++ ".sql")
      = next_version st := by
    rw [hassoc]
    exact extract_version_pad3_prefix _ _
  have hev : extract_version (create_migration d st).1 = next_version st := hev2
  have hsql : endsWithSql (create_migration d st).1 = true :=
    endsWithSql_append (pad3 (next_version st) ++ "_" ++ slugify d)
  have hmem : (⟨(create_migration d st).1, migrationTemplate⟩ : MigFile) ∈
      get_migration_files (create_migration d st).2 := by
    rw [mem_get_migration_files]
    refine ⟨?_, hsql, ?_⟩
    · cases hd : st.dir with
      | none => simp [create_migration, dirFiles, writeFileToDir, hd]
      | some fs => simp [create_migration, dirFiles, writeFileToDir, hd]
    · show 0 < extract_version (create_migration d st).1
      rw [hev]
      exact hn
  refine ⟨hn, hev, hmem, ?_⟩
  have hne2 : get_migration_files (create_migration d st).2 ≠ [] := by
    intro hnil
    rw [hnil] at hmem
    simp at hmem
  have hub : ∀ g ∈ get_migration_files (create_migration d st).2,
      extract_version g.name ≤ next_version st := by
    intro g hg
    obtain ⟨hgd, hgs, hgp⟩ := (mem_get_migration_files g _).mp hg
    cases hd : st.dir with
    | none =>
      simp only [create_migration, dirFiles, writeFileToDir, hd] at hgd
      have hgeq : g = ⟨pad3 (next_version st) ++ "_" ++ slugify d ++ ".sql",
          migrationTemplate⟩ := by simpa using hgd
      rw [hgeq]
      show extract_version (pad3 (next_version st) ++ "_" ++ slugify d ++ ".sql")
        ≤ next_version st
      rw [hev2]
    | some fs =>
      simp only [create_migration, dirFiles, writeFileToDir, hd] at hgd
      rcases List.mem_append.mp hgd with hgl | hgr
      · have hgfs : g ∈ fs := List.mem_of_mem_filter hgl
        have hgm : g ∈ get_migration_files st := by
          rw [mem_get_migration_files]
          refine ⟨?_, hgs, hgp⟩
          unfold dirFiles
          rw [hd]
          exact hgfs
        have := version_lt_next st g hgm
        omega
      · have hgeq : g = ⟨pad3 (next_version st) ++ "_" ++ slugify d ++ ".sql",
            migrationTemplate⟩ := by simpa using hgr
        rw [hgeq]
        show extract_version (pad3 (next_version st) ++ "_" ++ slugify d ++ ".sql")
          ≤ next_version st
        rw [hev2]
  have hlastmem := getLastD_mem _ (⟨"", []⟩ : MigFile) hne2
  have hlb := version_le_getLastD (create_migration d st).2
    ⟨(create_migration d st).1, migrationTemplate⟩ ⟨"", []⟩ hmem
  have hub2 := hub _ hlastmem
  have hnewf : extract_version
      ((⟨(create_migration d st).1, migrationTemplate⟩ : MigFile).name)
      = next_version st := hev
  rw [next_version_eq _ hne2]
  omega
